import Mathlib

/-!
Verification of the gcc-callgraph-plugin call-graph extraction core.

The embedding mirrors `src/gcc-callgraph-plugin.py`:
* `Node`, graphs as association lists from function identifiers to nodes
  (Python dicts preserve insertion order, so an association list is the
  faithful pure counterpart);
* `PathFinder.__init__`'s filtered private copy as `filterGraph`;
* `PathFinder.__search`'s worklist loop as the fuel-based `searchFuel`
  (the fuel models the loop iterations; `search` runs it with fuel equal
  to the number of graph entries, which is proved sufficient);
* `PathFinder.find` as `find` with its four result-selection cases;
* `OutputCallgraph.to_dot` as `to_dot`, string concatenation included;
* `OutputCallgraph.clean_lib_functions` as `clean_lib_functions`;
* `OutputCallgraph.print_final_report` / `execute` as pure functions
  returning the produced effects (warnings, render request, outcome).
-/

/-- A call-graph node: lists of caller and callee function identifiers,
mirroring `Node.__init__` in the source (`self.callers`, `self.callees`). -/
structure Node where
  callers : List String
  callees : List String
deriving Repr, DecidableEq

/-- A call graph: a finite mapping from function identifiers to nodes,
as an insertion-ordered association list (the pure counterpart of the
Python dict built by `OutputCallgraph.get_graph`). -/
abbrev Graph := List (String × Node)

/-- The key set of a graph (the function identifiers), as a list. -/
def keys (g : Graph) : List String := g.map Prod.fst

/-- Dictionary lookup `graph[fname]`, returning `none` when the key is
absent (the situation in which Python would raise `KeyError`). -/
def gLookup : Graph → String → Option Node
  | [], _ => none
  | (k, n) :: rest, f => if k = f then some n else gLookup rest f

/-- Search direction: `PathFinder.__search` receives `"forward"` or
`"backward"` as the `direction` argument. -/
inductive Dir where
  | forward
  | backward
deriving Repr, DecidableEq

/-- `flist = node.callees if direction == "forward" else node.callers`. -/
def flist (dir : Dir) (node : Node) : List String :=
  match dir with
  | Dir.forward => node.callees
  | Dir.backward => node.callers

/-- `PathFinder.__init__`: the private filtered copy of the graph, keeping
exactly the entries whose key is not in `exclude`. -/
def filterGraph (g : Graph) (exclude : List String) : Graph :=
  g.filter (fun p => p.1 ∉ exclude)

/-- The inner loop of `PathFinder.__search`: for each `child` in `flist`,
add it to the frontier when it is not visited, is a key of the graph, and
is not already in the frontier (the frontier is a Python set, so adding a
present element is a no-op). -/
def addChildren (g : Graph) (visited : List String) (fr : List String) :
    List String → List String
  | [] => fr
  | c :: cs =>
      if c ∉ visited ∧ c ∈ keys g ∧ c ∉ fr then
        addChildren g visited (fr ++ [c]) cs
      else
        addChildren g visited fr cs

/-- The `while len(neighbours) > 0` loop of `PathFinder.__search`.  Each
iteration pops one identifier from the frontier, adds it to `visited`, and
adds its unvisited in-graph neighbours to the frontier.  `fuel` bounds the
number of iterations; `none` models the loop never reaching an empty
frontier within the bound (or a `KeyError` on lookup, which the source
cannot hit because every frontier element is a graph key). -/
def searchFuel (g : Graph) (dir : Dir) :
    Nat → List String → List String → Option (List String)
  | _, [], visited => some visited
  | 0, _ :: _, _ => none
  | fuel + 1, fname :: rest, visited =>
      match gLookup g fname with
      | none => none
      | some node =>
          searchFuel g dir fuel
            (addChildren g (visited ++ [fname]) rest (flist dir node))
            (visited ++ [fname])

/-- The seed frontier `{s for s in start if s in self.graph}`: a set, hence
deduplicated. -/
def initialFrontier (g : Graph) (start : List String) : List String :=
  (start.filter (fun s => s ∈ keys g)).dedup

/-- `PathFinder.__search(direction, start)`: run the worklist loop from the
valid seeds.  Fuel `g.length` is proved sufficient (`searchFuel_isSome`). -/
def search (g : Graph) (dir : Dir) (start : List String) : List String :=
  (searchFuel g dir g.length (initialFrontier g start) []).getD []

/-- `PathFinder.find(start, end)`: both directional searches over the
filtered graph, then the four result-selection cases. -/
def find (g : Graph) (exclude start end_ : List String) : List String :=
  let fg := filterGraph g exclude
  let forward := search fg Dir.forward start
  let backward := search fg Dir.backward end_
  if start.length = 0 ∧ end_.length = 0 then keys fg
  else if start.length = 0 then backward
  else if end_.length = 0 then forward
  else forward.filter (fun x => x ∈ backward)

/-- One directed traversal step of the search, as a relation: `a` is a
graph key whose direction-appropriate neighbour list contains `b`, and `b`
is itself a graph key (edges to absent keys are skipped by the search). -/
def edgeStep (g : Graph) (dir : Dir) (a b : String) : Prop :=
  ∃ n, gLookup g a = some n ∧ b ∈ flist dir n ∧ b ∈ keys g

/-- The specification-side reachable set ("transitive closure following
callee links from every id in `start` that exists in the filtered graph;
ids absent from the filtered graph are silently skipped as seeds"). -/
def reachableFrom (g : Graph) (dir : Dir) (seeds : List String) (x : String) :
    Prop :=
  ∃ s, s ∈ seeds ∧ s ∈ keys g ∧ Relation.ReflTransGen (edgeStep g dir) s x

/-- Quote an identifier as `to_dot` does with `'"%s"' % s`. -/
def quoteId (s : String) : String := "\"" ++ s ++ "\""

/-- The start-node directive `'"%s" [fillcolor=blue style=filled];\n' % s`. -/
def startDirective (s : String) : String :=
  quoteId s ++ " [fillcolor=blue style=filled];\n"

/-- The end-node directive `'"%s" [fillcolor=green style=filled];\n' % e`. -/
def endDirective (e : String) : String :=
  quoteId e ++ " [fillcolor=green style=filled];\n"

/-- The edge directive `'  "%s" -> "%s";\n' % (fname, callee)`. -/
def edgeDirective (a b : String) : String :=
  "  " ++ quoteId a ++ " -> " ++ quoteId b ++ ";\n"

/-- `OutputCallgraph.to_dot(graph, nodes, start, end)`: build the dot text
by successive string concatenation, exactly as the source's three loops do
(start-node directives, then end-node directives, then edge directives;
`if fname not in graph: continue` is the `gLookup ... none` case). -/
def to_dot (graph : Graph) (nodes start end_ : List String) : String :=
  let d1 := start.foldl
    (fun acc s => if s ∈ nodes then acc ++ startDirective s else acc)
    "digraph Callgraph \x7b\n"
  let d2 := end_.foldl
    (fun acc e => if e ∈ nodes then acc ++ endDirective e else acc) d1
  let d3 := nodes.foldl
    (fun acc fname =>
      match gLookup graph fname with
      | none => acc
      | some node =>
          node.callees.foldl
            (fun a callee =>
              if callee ∈ nodes then a ++ edgeDirective fname callee else a)
            acc)
    d2
  d3 ++ "\x7d\n"

/-- `OutputCallgraph.clean_lib_functions(graph)`: for every node, keep only
the caller and callee entries that are keys of the graph.  The Python loop
mutates nodes in place while iterating the dict; the key set never changes
during the loop, so it is the pointwise map below. -/
def clean_lib_functions (graph : Graph) : Graph :=
  graph.map (fun p =>
    (p.1, Node.mk (p.2.callers.filter (fun c => c ∈ keys graph))
                  (p.2.callees.filter (fun c => c ∈ keys graph))))

/-- The relevant configuration settings (`Config.start`, `Config.end`,
`Config.exclude`, `Config.out_file`), already coerced to sets/lists. -/
structure Config where
  start : List String
  end_ : List String
  exclude : List String
  out_file : String

/-- The final-report outcome: `Out.success("written to %s" % out_file)` or
`Out.info("no paths found between the given function sets")`. -/
inductive ReportOutcome where
  | success (out_file : String)
  | noPaths
deriving Repr, DecidableEq

/-- The warning text `'function "%s" not found.' % f` emitted by
`print_final_report` for a requested identifier absent from the graph. -/
def warnMsg (f : String) : String :=
  "function \"" ++ f ++ "\" not found."

/-- `OutputCallgraph.print_final_report`: one warning per identifier of
`start | end | exclude` (a set union, hence deduplicated) absent from the
unfiltered graph, then the success / no-paths outcome. -/
def print_final_report (graph : Graph) (cfg : Config) (found_paths : Bool) :
    List String × ReportOutcome :=
  (((cfg.start ++ cfg.end_ ++ cfg.exclude).dedup.filter
      (fun f => f ∉ keys graph)).map warnMsg,
   if found_paths then ReportOutcome.success cfg.out_file
   else ReportOutcome.noPaths)

/-- The effects produced by one `OutputCallgraph.execute` run: the selected
nodes, the dot text handed to the external renderer (`none` when rendering
and the `dot` invocation are skipped), the warnings, and the outcome. -/
structure ExecResult where
  nodes : List String
  rendered : Option String
  warnings : List String
  outcome : ReportOutcome

/-- `OutputCallgraph.execute` (inside the `gcc.is_lto()` branch, after
`get_graph`): run the path finder, render and request the external `dot`
call only when `found_paths`, then report. -/
def execute (graph : Graph) (cfg : Config) : ExecResult :=
  let nodes := find graph cfg.exclude cfg.start cfg.end_
  let found_paths : Bool := nodes.length ≠ 0
  let rendered :=
    if found_paths then some (to_dot graph nodes cfg.start cfg.end_)
    else none
  let rep := print_final_report graph cfg found_paths
  ⟨nodes, rendered, rep.1, rep.2⟩

/-- The example graph of the specification's scenario section:
A→B, B→C, B→D, C→E, D→E (caller lists consistent with the callee lists,
as `get_graph` builds both directions from the same edges). -/
def exampleGraph : Graph :=
  [("A", Node.mk [] ["B"]),
   ("B", Node.mk ["A"] ["C", "D"]),
   ("C", Node.mk ["B"] ["E"]),
   ("D", Node.mk ["B"] ["E"]),
   ("E", Node.mk ["C", "D"] [])]

theorem mem_keys_iff_gLookup (g : Graph) (a : String) :
    a ∈ keys g ↔ ∃ n, gLookup g a = some n := by
  induction g with
  | nil => simp [keys, gLookup]
  | cons p rest ih =>
      obtain ⟨k, n⟩ := p
      by_cases h : k = a
      · subst h
        simp [keys, gLookup]
      · have hk : keys ((k, n) :: rest) = k :: keys rest := rfl
        rw [hk, List.mem_cons]
        show _ ↔ ∃ m, (if k = a then some n else gLookup rest a) = some m
        rw [if_neg h]
        constructor
        · rintro (rfl | hm)
          · exact absurd rfl h
          · exact ih.mp hm
        · intro hm
          exact Or.inr (ih.mpr hm)

theorem gLookup_isSome_of_mem_keys {g : Graph} {a : String} (h : a ∈ keys g) :
    ∃ n, gLookup g a = some n :=
  (mem_keys_iff_gLookup g a).mp h

theorem mem_keys_of_gLookup {g : Graph} {a : String} {n : Node}
    (h : gLookup g a = some n) : a ∈ keys g :=
  (mem_keys_iff_gLookup g a).mpr ⟨n, h⟩

theorem subset_addChildren (g : Graph) (visited : List String)
    (cs : List String) :
    ∀ fr : List String, fr ⊆ addChildren g visited fr cs := by
  induction cs with
  | nil => intro fr; simp [addChildren]
  | cons c cs ih =>
      intro fr
      simp only [addChildren]
      by_cases h : c ∉ visited ∧ c ∈ keys g ∧ c ∉ fr
      · simp only [h, if_pos]
        exact fun x hx => ih (fr ++ [c]) (List.mem_append_left _ hx)
      · simp only [h, if_neg, not_false_iff]
        exact ih fr

theorem mem_addChildren (g : Graph) (visited : List String)
    (cs : List String) :
    ∀ fr x, x ∈ addChildren g visited fr cs →
      x ∈ fr ∨ (x ∈ cs ∧ x ∈ keys g ∧ x ∉ visited) := by
  induction cs with
  | nil => intro fr x hx; exact Or.inl hx
  | cons c cs ih =>
      intro fr x hx
      simp only [addChildren] at hx
      by_cases h : c ∉ visited ∧ c ∈ keys g ∧ c ∉ fr
      · rw [if_pos h] at hx
        rcases ih (fr ++ [c]) x hx with hfr | ⟨h1, h2, h3⟩
        · rcases List.mem_append.mp hfr with hl | hr
          · exact Or.inl hl
          · have : x = c := by simpa using hr
            subst this
            exact Or.inr ⟨List.mem_cons_self _ _, h.2.1, h.1⟩
        · exact Or.inr ⟨List.mem_cons_of_mem _ h1, h2, h3⟩
      · rw [if_neg h] at hx
        rcases ih fr x hx with hfr | ⟨h1, h2, h3⟩
        · exact Or.inl hfr
        · exact Or.inr ⟨List.mem_cons_of_mem _ h1, h2, h3⟩

theorem addChildren_complete (g : Graph) (visited : List String)
    (cs : List String) :
    ∀ fr c, c ∈ cs → c ∈ keys g → c ∉ visited →
      c ∈ addChildren g visited fr cs := by
  induction cs with
  | nil => intro fr c hc; cases hc
  | cons c0 cs ih =>
      intro fr c hc hk hv
      simp only [addChildren]
      rcases List.mem_cons.mp hc with rfl | hc
      · by_cases h : c ∉ visited ∧ c ∈ keys g ∧ c ∉ fr
        · rw [if_pos h]
          exact subset_addChildren g visited cs (fr ++ [c])
            (List.mem_append_right _ (List.mem_singleton_self _))
        · rw [if_neg h]
          push_neg at h
          exact subset_addChildren g visited cs fr (h hv hk)
      · by_cases h : c0 ∉ visited ∧ c0 ∈ keys g ∧ c0 ∉ fr
        · rw [if_pos h]; exact ih _ c hc hk hv
        · rw [if_neg h]; exact ih _ c hc hk hv

theorem addChildren_nodup (g : Graph) (visited : List String)
    (cs : List String) :
    ∀ fr, fr.Nodup → (addChildren g visited fr cs).Nodup := by
  induction cs with
  | nil => intro fr h; exact h
  | cons c cs ih =>
      intro fr hfr
      simp only [addChildren]
      by_cases h : c ∉ visited ∧ c ∈ keys g ∧ c ∉ fr
      · rw [if_pos h]
        refine ih _ ?_
        simpa [List.nodup_append] using ⟨hfr, h.2.2⟩
      · rw [if_neg h]; exact ih _ hfr

theorem searchFuel_sound (g : Graph) (dir : Dir) (P : String → Prop)
    (hcl : ∀ a b, P a → edgeStep g dir a b → P b) :
    ∀ (fuel : Nat) (fr visited V : List String),
      searchFuel g dir fuel fr visited = some V →
      (∀ x ∈ fr, P x) → (∀ x ∈ visited, P x) → ∀ x ∈ V, P x := by
  intro fuel
  induction fuel with
  | zero =>
      intro fr visited V h hfr hv
      cases fr with
      | nil =>
          simp only [searchFuel, Option.some.injEq] at h
          subst h; exact hv
      | cons a rest => simp [searchFuel] at h
  | succ fuel ih =>
      intro fr visited V h hfr hv
      cases fr with
      | nil =>
          simp only [searchFuel, Option.some.injEq] at h
          subst h; exact hv
      | cons fname rest =>
          simp only [searchFuel] at h
          cases hlk : gLookup g fname with
          | none => rw [hlk] at h; cases h
          | some node =>
              rw [hlk] at h
              refine ih _ _ _ h ?_ ?_
              · intro x hx
                rcases mem_addChildren g _ _ _ x hx with hrest | ⟨hcs, hk, _⟩
                · exact hfr x (List.mem_cons_of_mem _ hrest)
                · exact hcl fname x (hfr fname (List.mem_cons_self _ _))
                    ⟨node, hlk, hcs, hk⟩
              · intro x hx
                rcases List.mem_append.mp hx with h1 | h2
                · exact hv x h1
                · have hxe : x = fname := by simpa using h2
                  subst hxe; exact hfr x (List.mem_cons_self _ _)

theorem searchFuel_subset (g : Graph) (dir : Dir) :
    ∀ (fuel : Nat) (fr visited V : List String),
      searchFuel g dir fuel fr visited = some V →
      visited ⊆ V ∧ fr ⊆ V := by
  intro fuel
  induction fuel with
  | zero =>
      intro fr visited V h
      cases fr with
      | nil =>
          simp only [searchFuel, Option.some.injEq] at h
          subst h; exact ⟨List.Subset.refl _, List.nil_subset _⟩
      | cons a rest => simp [searchFuel] at h
  | succ fuel ih =>
      intro fr visited V h
      cases fr with
      | nil =>
          simp only [searchFuel, Option.some.injEq] at h
          subst h; exact ⟨List.Subset.refl _, List.nil_subset _⟩
      | cons fname rest =>
          simp only [searchFuel] at h
          cases hlk : gLookup g fname with
          | none => rw [hlk] at h; cases h
          | some node =>
              rw [hlk] at h
              obtain ⟨hvis, hfr⟩ := ih _ _ _ h
              constructor
              · exact fun x hx => hvis (List.mem_append_left _ hx)
              · intro x hx
                rcases List.mem_cons.mp hx with rfl | hr
                · exact hvis (List.mem_append_right _ (by simp))
                · exact hfr (subset_addChildren g _ _ _ hr)

theorem searchFuel_closed (g : Graph) (dir : Dir) :
    ∀ (fuel : Nat) (fr visited V : List String),
      searchFuel g dir fuel fr visited = some V →
      (∀ x ∈ visited, ∀ y, edgeStep g dir x y → y ∈ visited ∨ y ∈ fr) →
      ∀ x ∈ V, ∀ y, edgeStep g dir x y → y ∈ V := by
  intro fuel
  induction fuel with
  | zero =>
      intro fr visited V h hinv
      cases fr with
      | nil =>
          simp only [searchFuel, Option.some.injEq] at h
          subst h
          intro x hx y hy
          rcases hinv x hx y hy with hv | hn
          · exact hv
          · cases hn
      | cons a rest => simp [searchFuel] at h
  | succ fuel ih =>
      intro fr visited V h hinv
      cases fr with
      | nil =>
          simp only [searchFuel, Option.some.injEq] at h
          subst h
          intro x hx y hy
          rcases hinv x hx y hy with hv | hn
          · exact hv
          · cases hn
      | cons fname rest =>
          simp only [searchFuel] at h
          cases hlk : gLookup g fname with
          | none => rw [hlk] at h; cases h
          | some node =>
              rw [hlk] at h
              refine ih _ _ _ h ?_
              intro x hx y hy
              rcases List.mem_append.mp hx with hxv | hxf
              · rcases hinv x hxv y hy with hv | hn
                · exact Or.inl (List.mem_append_left _ hv)
                · rcases List.mem_cons.mp hn with rfl | hr
                  · exact Or.inl (List.mem_append_right _ (by simp))
                  · exact Or.inr (subset_addChildren g _ _ _ hr)
              · have hxe : x = fname := by simpa using hxf
                subst hxe
                obtain ⟨n', hlk', hmem, hk⟩ := hy
                rw [hlk] at hlk'
                injection hlk' with hne
                subst hne
                by_cases hyv : y ∈ visited ++ [x]
                · exact Or.inl hyv
                · exact Or.inr (addChildren_complete g _ _ _ y hmem hk hyv)

theorem searchFuel_isSome (g : Graph) (dir : Dir) :
    ∀ (fuel : Nat) (fr visited : List String),
      fr ⊆ keys g → fr.Nodup → visited ⊆ keys g → visited.Nodup →
      (∀ x ∈ fr, x ∉ visited) →
      (keys g).length ≤ fuel + visited.length →
      (searchFuel g dir fuel fr visited).isSome := by
  intro fuel
  induction fuel with
  | zero =>
      intro fr visited hfrk hfrnd hvk hvnd hdis hlen
      cases fr with
      | nil => simp [searchFuel]
      | cons fname rest =>
          exfalso
          have hfv : fname ∉ visited := hdis fname (List.mem_cons_self _ _)
          have hnd : (visited ++ [fname]).Nodup := by
            simp [List.nodup_append, hvnd, hfv]
          have hsub : (visited ++ [fname]) ⊆ keys g := by
            intro x hx
            rcases List.mem_append.mp hx with h1 | h2
            · exact hvk h1
            · have hxe : x = fname := by simpa using h2
              subst hxe
              exact hfrk (List.mem_cons_self _ _)
          have hle : (visited ++ [fname]).length ≤ (keys g).length :=
            (List.subperm_of_subset hnd hsub).length_le
          simp at hle
          omega
  | succ fuel ih =>
      intro fr visited hfrk hfrnd hvk hvnd hdis hlen
      cases fr with
      | nil => simp [searchFuel]
      | cons fname rest =>
          have hfk : fname ∈ keys g := hfrk (List.mem_cons_self _ _)
          obtain ⟨node, hlk⟩ := gLookup_isSome_of_mem_keys hfk
          simp only [searchFuel]
          rw [hlk]
          have hfv : fname ∉ visited := hdis fname (List.mem_cons_self _ _)
          have hfrest : fname ∉ rest := (List.nodup_cons.mp hfrnd).1
          have hrestnd : rest.Nodup := (List.nodup_cons.mp hfrnd).2
          refine ih (addChildren g (visited ++ [fname]) rest (flist dir node))
            (visited ++ [fname]) ?_ ?_ ?_ ?_ ?_ ?_
          · intro x hx
            rcases mem_addChildren g _ _ _ x hx with hr | ⟨_, hk, _⟩
            · exact hfrk (List.mem_cons_of_mem _ hr)
            · exact hk
          · exact addChildren_nodup g _ _ _ hrestnd
          · intro x hx
            rcases List.mem_append.mp hx with h1 | h2
            · exact hvk h1
            · have hxe : x = fname := by simpa using h2
              subst hxe; exact hfk
          · simp [List.nodup_append, hvnd, hfv]
          · intro x hx
            rcases mem_addChildren g _ _ _ x hx with hr | ⟨_, _, hnv⟩
            · intro hxv
              rcases List.mem_append.mp hxv with h1 | h2
              · exact hdis x (List.mem_cons_of_mem _ hr) h1
              · have hxe : x = fname := by simpa using h2
                subst hxe
                exact hfrest hr
            · exact hnv
          · simp only [List.length_append, List.length_cons, List.length_nil]
            omega

theorem initialFrontier_subset_keys (g : Graph) (seeds : List String) :
    initialFrontier g seeds ⊆ keys g := by
  intro x hx
  have h1 := List.mem_dedup.mp hx
  have h2 := List.mem_filter.mp h1
  simpa using h2.2

theorem mem_initialFrontier (g : Graph) (seeds : List String) (x : String) :
    x ∈ initialFrontier g seeds ↔ x ∈ seeds ∧ x ∈ keys g := by
  simp [initialFrontier, List.mem_filter]

theorem search_eq_some (g : Graph) (dir : Dir) (seeds : List String) :
    searchFuel g dir g.length (initialFrontier g seeds) [] =
      some (search g dir seeds) := by
  have h := searchFuel_isSome g dir g.length (initialFrontier g seeds) []
    (initialFrontier_subset_keys g seeds) (List.nodup_dedup _)
    (List.nil_subset _) List.nodup_nil (by simp)
    (by simp [keys])
  obtain ⟨V, hV⟩ := Option.isSome_iff_exists.mp h
  rw [hV]
  simp [search, hV]

/-- Correctness of `PathFinder.__search`: an identifier is in the search
result exactly when it is reachable (in the given direction) from a seed
that is a key of the graph. -/
theorem mem_search (g : Graph) (dir : Dir) (seeds : List String) (x : String) :
    x ∈ search g dir seeds ↔ reachableFrom g dir seeds x := by
  have hsome := search_eq_some g dir seeds
  constructor
  · intro hx
    refine searchFuel_sound g dir (reachableFrom g dir seeds) ?_ _ _ _ _
      hsome ?_ ?_ x hx
    · rintro a b ⟨s, hs, hk, hrtg⟩ hstep
      exact ⟨s, hs, hk, hrtg.tail hstep⟩
    · intro y hy
      obtain ⟨h1, h2⟩ := (mem_initialFrontier g seeds y).mp hy
      exact ⟨y, h1, h2, Relation.ReflTransGen.refl⟩
    · intro y hy; cases hy
  · rintro ⟨s, hs, hk, hrtg⟩
    have hsf : s ∈ search g dir seeds :=
      (searchFuel_subset g dir _ _ _ _ hsome).2
        ((mem_initialFrontier g seeds s).mpr ⟨hs, hk⟩)
    have hclosed := searchFuel_closed g dir _ _ _ _ hsome
      (fun z hz => absurd hz (List.not_mem_nil z))
    induction hrtg with
    | refl => exact hsf
    | tail hab hstep ih => exact hclosed _ ih _ hstep

theorem search_subset_keys (g : Graph) (dir : Dir) (seeds : List String) :
    ∀ x ∈ search g dir seeds, x ∈ keys g := by
  intro x hx
  obtain ⟨s, _, hk, hrtg⟩ := (mem_search g dir seeds x).mp hx
  induction hrtg with
  | refl => exact hk
  | tail hab hstep ih =>
      obtain ⟨n, _, _, hk2⟩ := hstep
      exact hk2

theorem mem_keys_filterGraph (g : Graph) (exclude : List String) (x : String) :
    x ∈ keys (filterGraph g exclude) ↔ x ∈ keys g ∧ x ∉ exclude := by
  constructor
  · intro hx
    obtain ⟨p, hp, hfst⟩ := List.mem_map.mp hx
    have hpf := List.mem_filter.mp hp
    subst hfst
    refine ⟨List.mem_map.mpr ⟨p, hpf.1, rfl⟩, by simpa using hpf.2⟩
  · rintro ⟨hx, hne⟩
    obtain ⟨p, hp, hfst⟩ := List.mem_map.mp hx
    subst hfst
    exact List.mem_map.mpr
      ⟨p, List.mem_filter.mpr ⟨hp, by simpa using hne⟩, rfl⟩

theorem find_branch_both_empty (g : Graph) (exclude : List String) :
    find g exclude [] [] = keys (filterGraph g exclude) := by
  simp [find]

theorem find_branch_forward (g : Graph) (exclude S : List String)
    (hS : S ≠ []) :
    find g exclude S [] = search (filterGraph g exclude) Dir.forward S := by
  have hlen : ¬S.length = 0 := by simpa [List.length_eq_zero] using hS
  simp [find, hlen]

theorem find_branch_backward (g : Graph) (exclude E : List String)
    (hE : E ≠ []) :
    find g exclude [] E = search (filterGraph g exclude) Dir.backward E := by
  have hlen : ¬E.length = 0 := by simpa [List.length_eq_zero] using hE
  simp [find, hlen]

theorem find_branch_both (g : Graph) (exclude S E : List String)
    (hS : S ≠ []) (hE : E ≠ []) :
    find g exclude S E =
      (search (filterGraph g exclude) Dir.forward S).filter
        (fun x => x ∈ search (filterGraph g exclude) Dir.backward E) := by
  have hlenS : ¬S.length = 0 := by simpa [List.length_eq_zero] using hS
  have hlenE : ¬E.length = 0 := by simpa [List.length_eq_zero] using hE
  simp [find, hlenS, hlenE]

theorem find_subset_keys (g : Graph) (exclude S E : List String) :
    ∀ x ∈ find g exclude S E, x ∈ keys (filterGraph g exclude) := by
  intro x hx
  simp only [find] at hx
  by_cases h1 : S.length = 0 ∧ E.length = 0
  · rw [if_pos h1] at hx; exact hx
  · rw [if_neg h1] at hx
    by_cases h2 : S.length = 0
    · rw [if_pos h2] at hx; exact search_subset_keys _ _ _ x hx
    · rw [if_neg h2] at hx
      by_cases h3 : E.length = 0
      · rw [if_pos h3] at hx; exact search_subset_keys _ _ _ x hx
      · rw [if_neg h3] at hx
        exact search_subset_keys _ _ _ x (List.mem_filter.mp hx).1

/-- C1: `PathFinder.find` obeys the four result-selection cases:
`find(∅, ∅)` is the key set of the filtered graph; `find(S, ∅)` with `S`
non-empty is the forward (callee-edge) reachable set of `S`; `find(∅, E)`
with `E` non-empty is the backward (caller-edge) reachable set of `E`; and
`find(S, E)` with both non-empty is the intersection of the forward set of
`S` with the backward set of `E`. -/
theorem find_result_selection (g : Graph) (exclude S E : List String)
    (x : String) :
    (x ∈ find g exclude [] [] ↔ x ∈ keys (filterGraph g exclude)) ∧
    (S ≠ [] → (x ∈ find g exclude S [] ↔
        reachableFrom (filterGraph g exclude) Dir.forward S x)) ∧
    (E ≠ [] → (x ∈ find g exclude [] E ↔
        reachableFrom (filterGraph g exclude) Dir.backward E x)) ∧
    (S ≠ [] → E ≠ [] → (x ∈ find g exclude S E ↔
        reachableFrom (filterGraph g exclude) Dir.forward S x ∧
        reachableFrom (filterGraph g exclude) Dir.backward E x)) := by
  refine ⟨?_, ?_, ?_, ?_⟩
  · rw [find_branch_both_empty]
  · intro hS
    rw [find_branch_forward g exclude S hS, mem_search]
  · intro hE
    rw [find_branch_backward g exclude E hE, mem_search]
  · intro hS hE
    rw [find_branch_both g exclude S E hS hE, List.mem_filter]
    simp [mem_search]

/-- Witness for C1: the four cases instantiated on the example graph. -/
theorem find_result_selection_witness :
    ("B" ∈ find exampleGraph [] ["A"] ["E"] ↔
      reachableFrom (filterGraph exampleGraph []) Dir.forward ["A"] "B" ∧
      reachableFrom (filterGraph exampleGraph []) Dir.backward ["E"] "B") :=
  (find_result_selection exampleGraph [] ["A"] ["E"] "B").2.2.2
    (by decide) (by decide)

/-- C10: reachability is reflexive at the public interface: every element
of a non-empty start set that is a key of the filtered graph is in
`find(S, ∅)` (even a node with no callee edges), and symmetrically every
valid element of `E` is in `find(∅, E)`, because each valid seed is itself
added to the visited set. -/
theorem find_contains_valid_seeds (g : Graph) (exclude S E : List String)
    (s : String) :
    (s ∈ S → s ∈ keys (filterGraph g exclude) → s ∈ find g exclude S []) ∧
    (s ∈ E → s ∈ keys (filterGraph g exclude) → s ∈ find g exclude [] E) := by
  constructor
  · intro hs hk
    rw [find_branch_forward g exclude S (List.ne_nil_of_mem hs)]
    exact (mem_search _ _ _ _).mpr ⟨s, hs, hk, Relation.ReflTransGen.refl⟩
  · intro hs hk
    rw [find_branch_backward g exclude E (List.ne_nil_of_mem hs)]
    exact (mem_search _ _ _ _).mpr ⟨s, hs, hk, Relation.ReflTransGen.refl⟩

/-- Witness for C10: `E` (no callee edges) is in `find({E}, ∅)`, and `A`
(no caller edges) is in `find(∅, {A})` on the example graph. -/
theorem find_contains_valid_seeds_witness :
    "E" ∈ find exampleGraph [] ["E"] [] ∧
    "A" ∈ find exampleGraph [] [] ["A"] :=
  ⟨(find_contains_valid_seeds exampleGraph [] ["E"] [] "E").1 (by decide)
      (by decide),
   (find_contains_valid_seeds exampleGraph [] [] ["A"] "A").2 (by decide)
      (by decide)⟩

/-- C2: no excluded identifier is ever in a `find` result, nor visited by
either directional search over the filtered graph (so it is never
traversed as an intermediate hop); and on the example graph A→B, B→C,
B→D, C→E, D→E, `find({A}, {E})` with exclude `{C}` is `{A, B, D, E}`. -/
theorem exclude_never_in_result (g : Graph) (exclude S E : List String)
    (x : String) (hx : x ∈ exclude) :
    (x ∉ find g exclude S E ∧
      ∀ (dir : Dir) (seeds : List String),
        x ∉ search (filterGraph g exclude) dir seeds) ∧
    (∀ y, y ∈ find exampleGraph ["C"] ["A"] ["E"] ↔
      y ∈ ["A", "B", "D", "E"]) := by
  have hnk : x ∉ keys (filterGraph g exclude) := fun hk =>
    ((mem_keys_filterGraph g exclude x).mp hk).2 hx
  refine ⟨⟨?_, ?_⟩, ?_⟩
  · intro hmem
    exact hnk (find_subset_keys g exclude S E x hmem)
  · intro dir seeds hmem
    exact hnk (search_subset_keys _ dir seeds x hmem)
  · have heq : find exampleGraph ["C"] ["A"] ["E"] = ["A", "B", "D", "E"] :=
      by rfl
    intro y
    rw [heq]

/-- Witness for C2, instantiated at the excluded identifier `C`. -/
theorem exclude_never_in_result_witness :
    ("C" ∉ find exampleGraph ["C"] ["A"] ["E"] ∧
      ∀ (dir : Dir) (seeds : List String),
        "C" ∉ search (filterGraph exampleGraph ["C"]) dir seeds) ∧
    (∀ y, y ∈ find exampleGraph ["C"] ["A"] ["E"] ↔
      y ∈ ["A", "B", "D", "E"]) :=
  exclude_never_in_result exampleGraph ["C"] ["A"] ["E"] "C" (by decide)

/-- C3: the search terminates on every graph, cycles and self-loops
included: the worklist loop reaches an empty frontier within `g.length`
iterations (each id is expanded at most once), and in particular a node
whose callee list contains its own id is handled. -/
theorem search_terminates (g : Graph) (dir : Dir) (seeds : List String) :
    (searchFuel g dir g.length (initialFrontier g seeds) []).isSome ∧
    search [("f", Node.mk ["f"] ["f"])] Dir.forward ["f"] = ["f"] := by
  constructor
  · rw [search_eq_some g dir seeds]
    rfl
  · rfl

theorem addChildren_skips_dangling (g : Graph) (visited : List String)
    (c : String) (hc : c ∉ keys g) (cs2 : List String) :
    ∀ (cs1 fr : List String),
      addChildren g visited fr (cs1 ++ c :: cs2) =
        addChildren g visited fr (cs1 ++ cs2) := by
  intro cs1
  induction cs1 with
  | nil =>
      intro fr
      simp only [List.nil_append, addChildren]
      rw [if_neg (fun h => hc h.2.1)]
  | cons a cs1 ih =>
      intro fr
      simp only [List.cons_append, addChildren]
      by_cases h : a ∉ visited ∧ a ∈ keys g ∧ a ∉ fr
      · rw [if_pos h, if_pos h]; exact ih _
      · rw [if_neg h, if_neg h]; exact ih _

/-- C4: a caller/callee entry naming an identifier that is not a key of
the (filtered) graph is treated as a non-existent neighbour: removing it
from a neighbour list does not change the frontier update; seeds absent
from the graph are silently dropped; and no identifier outside the key set
is ever visited. -/
theorem dangling_references_skipped (g : Graph) (dir : Dir)
    (visited fr cs1 cs2 seeds : List String) (c x : String) :
    (c ∉ keys g →
      addChildren g visited fr (cs1 ++ c :: cs2) =
        addChildren g visited fr (cs1 ++ cs2)) ∧
    search g dir seeds = search g dir (seeds.filter (fun s => s ∈ keys g)) ∧
    (x ∈ search g dir seeds → x ∈ keys g) := by
  refine ⟨?_, ?_, ?_⟩
  · intro hc
    exact addChildren_skips_dangling g visited c hc cs2 cs1 fr
  · have hif : initialFrontier g (seeds.filter (fun s => s ∈ keys g)) =
        initialFrontier g seeds := by
      simp [initialFrontier, List.filter_filter]
    simp only [search, hif]
  · exact search_subset_keys g dir seeds x

/-- Witness for C4: the dangling id `Z` is skipped as a neighbour on the
example graph, and the visited id `E` is a graph key. -/
theorem dangling_references_skipped_witness :
    (addChildren exampleGraph ["B"] [] (["C"] ++ "Z" :: []) =
      addChildren exampleGraph ["B"] [] (["C"] ++ [])) ∧
    "E" ∈ keys exampleGraph := by
  have h := dangling_references_skipped exampleGraph Dir.forward ["B"] []
    ["C"] [] ["A"] "Z" "E"
  exact ⟨h.1 (by decide), h.2.2 (by decide)⟩

/-- Concatenation of a list of strings in order, used to state the
emission-order contract of `to_dot`. -/
def strConcat : List String → String
  | [] => ""
  | s :: rest => s ++ strConcat rest

theorem foldl_guard_append (p : String → Prop) [DecidablePred p]
    (f : String → String) :
    ∀ (l : List String) (init : String),
      List.foldl (fun acc x => if p x then acc ++ f x else acc) init l =
        init ++ strConcat ((l.filter (fun x => p x)).map f) := by
  intro l
  induction l with
  | nil =>
      intro init
      simp [strConcat, String.append_empty]
  | cons a l ih =>
      intro init
      by_cases hp : p a
      · rw [List.foldl_cons, if_pos hp, ih,
          List.filter_cons_of_pos (by simpa using hp), List.map_cons]
        show _ = init ++ (f a ++ _)
        rw [String.append_assoc]
      · rw [List.foldl_cons, if_neg hp, ih,
          List.filter_cons_of_neg (by simpa using hp)]

/-- The edge-directive block emitted for one selected identifier: nothing
when it is not a graph key, otherwise one directive per callee that is
also selected, in callee-list (graph-construction) order. -/
def edgeBlock (graph : Graph) (nodes : List String) (fname : String) :
    String :=
  match gLookup graph fname with
  | none => ""
  | some node =>
      strConcat ((node.callees.filter (fun c => c ∈ nodes)).map
        (edgeDirective fname))

theorem foldl_edges_append (graph : Graph) (nodes : List String) :
    ∀ (l : List String) (init : String),
      List.foldl (fun acc fname =>
        match gLookup graph fname with
        | none => acc
        | some node =>
            node.callees.foldl
              (fun a callee =>
                if callee ∈ nodes then a ++ edgeDirective fname callee else a)
              acc) init l =
        init ++ strConcat (l.map (edgeBlock graph nodes)) := by
  intro l
  induction l with
  | nil =>
      intro init
      simp [strConcat, String.append_empty]
  | cons a l ih =>
      intro init
      rw [List.foldl_cons]
      cases hlk : gLookup graph a with
      | none =>
          simp only [hlk, ih, List.map_cons, edgeBlock, strConcat]
          rw [String.empty_append]
      | some node =>
          simp only [hlk, ih, List.map_cons, edgeBlock, strConcat]
          rw [foldl_guard_append (fun c => c ∈ nodes) (edgeDirective a),
            String.append_assoc]

/-- C5: the subgraph serialization emits, in this exact order: one
start-style node directive per id in `start ∩ selected`, then one
end-style node directive per id in `end ∩ selected` (so for an id in both,
the end-style directive comes after the start-style one), then the
directed-edge directives, one per callee edge with both endpoints in
`selected`, with each node's callee edges in graph-construction (callee
list) order. -/
theorem to_dot_emission_order (graph : Graph)
    (nodes start end_ : List String) :
    to_dot graph nodes start end_ =
      "digraph Callgraph \x7b\n" ++
        strConcat ((start.filter (fun s => s ∈ nodes)).map startDirective) ++
        strConcat ((end_.filter (fun e => e ∈ nodes)).map endDirective) ++
        strConcat (nodes.map (edgeBlock graph nodes)) ++
        "\x7d\n" := by
  simp only [to_dot]
  rw [foldl_guard_append (fun s => s ∈ nodes) startDirective,
    foldl_guard_append (fun e => e ∈ nodes) endDirective,
    foldl_edges_append graph nodes]

theorem keys_clean (g : Graph) : keys (clean_lib_functions g) = keys g := by
  simp only [keys, clean_lib_functions, List.map_map]
  rfl

theorem gLookup_map_snd (F : Node → Node) :
    ∀ (g : Graph) (f : String),
      gLookup (g.map (fun p => (p.1, F p.2))) f = (gLookup g f).map F := by
  intro g
  induction g with
  | nil => intro f; rfl
  | cons p rest ih =>
      intro f
      obtain ⟨k, n⟩ := p
      by_cases h : k = f
      · simp [gLookup, h]
      · simp [gLookup, h, ih]

/-- A graph with dangling references: `A`'s caller `X` and callee `Y`
have no graph entry (library functions without a body). -/
def danglingGraph : Graph :=
  [("A", Node.mk ["X"] ["B", "Y"]), ("B", Node.mk ["A"] [])]

/-- C6: after trimming, every identifier in any node's caller or callee
list is itself a key of the graph (dangling references are pruned), and
trimming never removes a node: the key set is unchanged. -/
theorem trim_prunes_dangling (g : Graph) (f c : String) (n : Node) :
    keys (clean_lib_functions g) = keys g ∧
    (gLookup (clean_lib_functions g) f = some n →
      (c ∈ n.callers ∨ c ∈ n.callees) →
      c ∈ keys (clean_lib_functions g)) := by
  refine ⟨keys_clean g, ?_⟩
  intro hlk hc
  rw [keys_clean]
  rw [clean_lib_functions,
    gLookup_map_snd (fun m =>
      Node.mk (m.callers.filter (fun c => c ∈ keys g))
        (m.callees.filter (fun c => c ∈ keys g)))] at hlk
  cases hg : gLookup g f with
  | none => rw [hg] at hlk; cases hlk
  | some n0 =>
      rw [hg] at hlk
      simp only [Option.map_some'] at hlk
      injection hlk with hn
      subst hn
      rcases hc with h | h
      · simpa using (List.mem_filter.mp h).2
      · simpa using (List.mem_filter.mp h).2

/-- Witness for C6 on `danglingGraph`: `A`'s trimmed entry keeps only the
in-graph reference `B`, which is a key. -/
theorem trim_prunes_dangling_witness :
    keys (clean_lib_functions danglingGraph) = keys danglingGraph ∧
    "B" ∈ keys (clean_lib_functions danglingGraph) :=
  ⟨(trim_prunes_dangling danglingGraph "A" "B" (Node.mk [] ["B"])).1,
   (trim_prunes_dangling danglingGraph "A" "B" (Node.mk [] ["B"])).2
     (by decide) (by decide)⟩

/-- C7: trimming is idempotent: a second application of
`clean_lib_functions` changes no node's caller or callee list. -/
theorem trim_idempotent (g : Graph) :
    clean_lib_functions (clean_lib_functions g) = clean_lib_functions g := by
  conv_lhs => rw [clean_lib_functions, keys_clean]
  conv_lhs => rw [clean_lib_functions]
  conv_rhs => rw [clean_lib_functions]
  rw [List.map_map]
  apply List.map_congr_left
  intro p _
  simp [Function.comp, List.filter_filter]

/-- The configuration of the spec scenario `find({Z}, {E})` with `Z`
absent from the graph. -/
def cfgMissing : Config := Config.mk ["Z"] ["E"] [] "callgraph.svg"

/-- The configuration of the spec scenario `find({A}, {E})` with exclude
`{C}`. -/
def cfgAE : Config := Config.mk ["A"] ["E"] ["C"] "callgraph.svg"

/-- C8: when the selection computed by `find` is empty, the run reports
the distinct "no paths found" outcome and performs neither the
serialization nor the external render invocation; when it is non-empty,
the dot text is produced and handed to the renderer and the outcome is
success with the output path. -/
theorem empty_selection_skips_render (g : Graph) (cfg : Config) :
    (find g cfg.exclude cfg.start cfg.end_ = [] →
      (execute g cfg).rendered = none ∧
      (execute g cfg).outcome = ReportOutcome.noPaths) ∧
    (find g cfg.exclude cfg.start cfg.end_ ≠ [] →
      (execute g cfg).rendered =
        some (to_dot g (find g cfg.exclude cfg.start cfg.end_)
          cfg.start cfg.end_) ∧
      (execute g cfg).outcome = ReportOutcome.success cfg.out_file) := by
  constructor
  · intro h
    simp [execute, print_final_report, h]
  · intro h
    have hlen : (find g cfg.exclude cfg.start cfg.end_).length ≠ 0 := by
      simpa [List.length_eq_zero] using h
    simp [execute, print_final_report, hlen]

/-- Witness for C8: the empty selection of `find({Z}, {E})` skips the
render, while `find({A}, {E})` with exclude `{C}` renders and succeeds. -/
theorem empty_selection_skips_render_witness :
    ((execute exampleGraph cfgMissing).rendered = none ∧
      (execute exampleGraph cfgMissing).outcome = ReportOutcome.noPaths) ∧
    (execute exampleGraph cfgAE).outcome =
      ReportOutcome.success "callgraph.svg" :=
  ⟨(empty_selection_skips_render exampleGraph cfgMissing).1 (by decide),
   ((empty_selection_skips_render exampleGraph cfgAE).2 (by decide)).2⟩

/-- C9: every identifier of `start ∪ end ∪ exclude` absent from the
unfiltered graph yields a non-fatal warning naming it, the run still
completing; in particular `find({Z}, {E})` with `Z` absent yields the
empty set, a warning naming `Z`, and a completed no-paths outcome. -/
theorem missing_ids_warned (g : Graph) (cfg : Config) (f : String) :
    (f ∈ cfg.start ++ cfg.end_ ++ cfg.exclude → f ∉ keys g →
      warnMsg f ∈ (execute g cfg).warnings) ∧
    find exampleGraph [] ["Z"] ["E"] = [] ∧
    warnMsg "Z" ∈ (execute exampleGraph cfgMissing).warnings ∧
    (execute exampleGraph cfgMissing).outcome = ReportOutcome.noPaths := by
  refine ⟨?_, by rfl, by decide, by decide⟩
  intro hf hnk
  simp only [execute, print_final_report]
  exact List.mem_map.mpr
    ⟨f, List.mem_filter.mpr ⟨List.mem_dedup.mpr hf, by simpa using hnk⟩, rfl⟩

/-- Witness for C9, instantiated at the absent identifier `Z`. -/
theorem missing_ids_warned_witness :
    warnMsg "Z" ∈ (execute exampleGraph cfgMissing).warnings :=
  (missing_ids_warned exampleGraph cfgMissing "Z").1 (by decide) (by decide)
